import Mathlib

/-!
Verification development for the UNILAG chatbot repository.

Each Python function relevant to the checked properties is shallowly
embedded as an executable Lean definition over `ℚ`, `ℕ`, `String` and
`List Char`, mirroring the control flow of the source:

* `resultSave`            — `Result.save` in `mit_chatbot/models.py`
* `calculateCgpa`         — `Student.calculate_cgpa` in `mit_chatbot/models.py`
* `academicSessionSave`, `semesterSave`
                          — `AcademicSession.save` / `Semester.save`
* `generateStudentId`     — the ID-generation branch of `Student.save`
* `executeTool`           — `MCPDatabaseService.execute_tool`
* `checkPrerequisites`    — `MCPDatabaseService.check_prerequisites`
* `checkEscalation`       — the `check_escalation` pipeline stage in
                            `mit_chatbot/services/enhanced_langchain_service.py`
* `rateMessageFirst` / `rateMessageSecond` / `rate_message`
                          — the two competing `rate_message` view functions in
                            `mit_chatbot/views/chatbot.py` (the second definition
                            shadows the first at module load, exactly as in Python)
* `smart_chunk_text`      — `TypesenseService.smart_chunk_text` in
                            `mit_chatbot/services/typesense_service.py`

Python `Decimal` arithmetic is exact and is modelled by `ℚ`; the one
`float(...)` conversion in `Result.save` cannot perturb any band comparison
because all band edges are integers while totals carry two decimal digits,
so the double-rounding error (< 1e-10) never crosses an edge.
-/

/-! ## Result.save (models.py lines 677-710) — claims C1, C10 -/

structure CourseM where
  credits : ℕ
deriving Repr, DecidableEq

structure ResultM where
  ca_score : ℚ
  exam_score : ℚ
  total_score : ℚ
  grade : String
  grade_point : ℚ
  credit_earned : ℕ
  status : String
deriving Repr, DecidableEq

/-- Embedding of `Result.save`: recompute `total_score`, the grade band,
the grade point, `credit_earned` and `status`, then persist.  The incoming
record's `grade`, `grade_point`, `credit_earned` and `status` are ignored,
exactly as in the source. -/
def resultSave (course : CourseM) (r : ResultM) : ResultM :=
  let total := r.ca_score + r.exam_score
  let gb : String × ℚ :=
    if 70 ≤ total then ("A", 5)
    else if 60 ≤ total then ("B", 4)
    else if 50 ≤ total then ("C", 3)
    else if 45 ≤ total then ("D", 2)
    else if 40 ≤ total then ("E", 1)
    else ("F", 0)
  let r1 := { r with total_score := total, grade := gb.1, grade_point := gb.2 }
  if gb.1 ≠ "F" then { r1 with credit_earned := course.credits, status := "PASSED" }
  else { r1 with credit_earned := 0, status := "FAILED" }

/-- The declared `Result.STATUS_CHOICES` keys (models.py lines 640-645). -/
def resultStatusChoices : List String := ["PASSED", "FAILED", "PENDING", "RETAKE"]

/-! ## Student.calculate_cgpa (models.py lines 538-560) — claim C2 -/

structure ResultRowM where
  grade_point : ℚ
  credits : ℕ
  is_final : Bool
deriving Repr, DecidableEq

/-- Rounding of `x` to an integer with ties to even, the default
`ROUND_HALF_EVEN` used by `Decimal.quantize`. -/
def roundHalfEven (x : ℚ) : ℤ :=
  let f := ⌊x⌋
  if x - f < 1/2 then f
  else if 1/2 < x - f then f + 1
  else if f % 2 = 0 then f else f + 1

/-- Embedding of `Decimal.quantize(Decimal(str 0.01))`: round to two decimal
places with ties to even. -/
def quantize2 (x : ℚ) : ℚ := (roundHalfEven (x * 100) : ℚ) / 100

/-- Embedding of `Student.calculate_cgpa`.  Returns the value the method
returns together with `some (current_cgpa, total_credits_earned)` when the
method persists those two fields, and `none` when it returns without
writing (the empty-results early return and the zero-credit fallthrough). -/
def calculateCgpa (results : List ResultRowM) : ℚ × Option (ℚ × ℕ) :=
  let fin := results.filter (fun r => r.is_final)
  if fin.isEmpty then (0, none)
  else
    let acc := fin.foldl
      (fun acc r => (acc.1 + r.grade_point * (r.credits : ℚ), acc.2 + r.credits))
      ((0 : ℚ), (0 : ℕ))
    if 0 < acc.2 then
      let cgpa := quantize2 (acc.1 / (acc.2 : ℚ))
      (cgpa, some (cgpa, acc.2))
    else (0, none)

/-! ## AcademicSession.save / Semester.save (models.py 362-366, 390-394) — claim C3 -/

structure SessionRow where
  rid : ℕ
  is_current : Bool
deriving Repr, DecidableEq

/-- Embedding of `objects.filter(is_current=True).update(is_current=False)`. -/
def clearCurrentFlags (db : List SessionRow) : List SessionRow :=
  db.map (fun r => if r.is_current then { r with is_current := false } else r)

/-- Embedding of Django `Model.save` persistence: update the row with the
same primary key when it exists, insert otherwise. -/
def ormSave (db : List SessionRow) (s : SessionRow) : List SessionRow :=
  if db.any (fun r => r.rid == s.rid) then
    db.map (fun r => if r.rid == s.rid then s else r)
  else db ++ [s]

/-- Embedding of `AcademicSession.save`. -/
def academicSessionSave (db : List SessionRow) (s : SessionRow) : List SessionRow :=
  ormSave (if s.is_current then clearCurrentFlags db else db) s

/-- Embedding of `Semester.save` (same body as `AcademicSession.save`). -/
def semesterSave (db : List SessionRow) (s : SessionRow) : List SessionRow :=
  ormSave (if s.is_current then clearCurrentFlags db else db) s

/-! ## MCPDatabaseService.execute_tool (mcp_service.py 29-53) — claim C5 -/

/-- The keys of `self.available_tools` in registration order. -/
def availableToolNames : List String :=
  ["get_student_profile", "get_student_results", "get_student_cgpa",
   "get_course_info", "get_student_courses", "get_semester_results",
   "check_prerequisites", "get_graduation_status", "get_academic_calendar",
   "search_courses", "get_department_info"]

/-- Tool parameters: a keyword-argument dictionary. -/
abbrev ToolParams := List (String × String)

/-- Opaque payload returned by a tool. -/
abbrev ToolData := String

/-- The response dictionary of `execute_tool`; absent keys are `none`. -/
structure ToolEnvelope where
  success : Bool
  error : Option String
  available_tools : Option (List String)
  tool : Option String
  data : Option ToolData
  timestamp : Option String
deriving Repr, DecidableEq

/-- Embedding of `execute_tool`.  Tool bodies are abstracted by `impl`,
returning `Except.error e` when the Python tool raises an exception with
text `e`; `now` stands for `datetime.now().isoformat()`.  The function is
total: every outcome is one of the three envelopes and no exception ever
propagates, mirroring the all-enclosing `try`/`except`. -/
def executeTool (impl : String → ToolParams → Except String ToolData)
    (now : String) (tool_name : String) (ps : ToolParams) : ToolEnvelope :=
  if tool_name ∈ availableToolNames then
    match impl tool_name ps with
    | Except.ok d =>
        { success := true, error := none, available_tools := none,
          tool := some tool_name, data := some d, timestamp := some now }
    | Except.error e =>
        { success := false, error := some e, available_tools := none,
          tool := some tool_name, data := none, timestamp := none }
  else
    { success := false, error := some ("Unknown tool: " ++ tool_name),
      available_tools := some availableToolNames,
      tool := none, data := none, timestamp := none }

/-! ## MCPDatabaseService.check_prerequisites (mcp_service.py 333-380) — claim C6 -/

structure PrereqCourseM where
  code : String
  title : String
  credits : ℕ
deriving Repr, DecidableEq

structure StudentResultM where
  course_code : String
  grade_point : ℚ
  is_final : Bool
deriving Repr, DecidableEq

/-- The response of `check_prerequisites`; `completed_prerequisites` is
`none` in the no-prerequisite early return, whose dictionary has no such
key. -/
structure PrereqCheckM where
  eligible : Bool
  message : String
  missing_prerequisites : List PrereqCourseM
  completed_prerequisites : Option (List (String × String))
deriving Repr, DecidableEq

/-- Embedding of the queryset
`student.results.filter(grade_point__gte=1.0, is_final=True).values_list(course__code)`. -/
def completedCourseCodes (results : List StudentResultM) : List String :=
  (results.filter (fun r => decide ((1 : ℚ) ≤ r.grade_point) && r.is_final)).map
    (fun r => r.course_code)

/-- Embedding of `check_prerequisites`, given the course's prerequisite
list and the student's result rows. -/
def checkPrerequisites (prereqs : List PrereqCourseM)
    (results : List StudentResultM) : PrereqCheckM :=
  if prereqs.isEmpty then
    { eligible := true, message := "No prerequisites required",
      missing_prerequisites := [], completed_prerequisites := none }
  else
    let completed := completedCourseCodes results
    let missing := prereqs.filter (fun p => !(completed.contains p.code))
    { eligible := missing.length == 0,
      message := if missing.length == 0 then "Prerequisites met"
                 else "Missing " ++ toString missing.length ++ " prerequisite(s)",
      missing_prerequisites := missing,
      completed_prerequisites :=
        some ((prereqs.filter (fun p => completed.contains p.code)).map
          (fun p => (p.code, p.title))) }

/-! ## check_escalation (enhanced_langchain_service.py 322-349) — claim C7 -/

/-- The ASCII apostrophe. -/
def aposChar : Char := Char.ofNat 39

/-- The fixed `escalation_indicators` list.  The first entry is spelled
with a capital `I` in the source. -/
def escalationIndicators : List (List Char) :=
  [("I don".data ++ [aposChar] ++ "t have access".data),
   "contact the".data, "speak to".data, "visit the".data]

/-- Lower-casing of `response.lower()` (ASCII case folding suffices for
the strings involved). -/
def toLowerL (s : List Char) : List Char := s.map Char.toLower

/-- Python `needle in hay` on strings: contiguous-substring test. -/
def containsSubstr (needle hay : List Char) : Bool :=
  match hay with
  | [] => needle.isEmpty
  | _ :: t => needle.isPrefixOf hay || containsSubstr needle t

/-- Embedding of the `check_escalation` stage: `response` is the
synthesized final text and `mcpSuccess` the list of
`r["result"].get("success", True)` values of this turn's tool calls. -/
def checkEscalation (response : List Char) (mcpSuccess : List Bool) : Bool :=
  escalationIndicators.any (fun ind => containsSubstr ind (toLowerL response))
    || decide (response.length < 50)
    || mcpSuccess.any (fun b => !b)

/-! ## rate_message (views/chatbot.py 132-149 and 222-236) — claim C8 -/

structure MsgM where
  msg_id : String
  message_type : String
  rating : Option ℤ
deriving Repr, DecidableEq

/-- Write `rating` on the row with id `mid` (Django `message.save()`). -/
def setMsgRating (db : List MsgM) (mid : String) (rv : Option ℤ) : List MsgM :=
  db.map (fun m => if m.msg_id == mid then { m with rating := rv } else m)

/-- Embedding of the FIRST `rate_message` definition (views/chatbot.py
lines 132-149): validates `rating ∈ {1,2}` and looks the message up with
`message_type='bot'`.  Returns the HTTP status and the resulting table. -/
def rateMessageFirst (db : List MsgM) (message_id : Option String)
    (rating : Option ℤ) : ℕ × List MsgM :=
  match message_id with
  | none => (400, db)
  | some mid =>
    if mid = "" then (400, db)
    else if ¬(rating = some 1 ∨ rating = some 2) then (400, db)
    else
      match db.find? (fun m => m.msg_id == mid && m.message_type == "bot") with
      | none => (404, db)
      | some _ => (200, setMsgRating db mid rating)

/-- Embedding of the SECOND `rate_message` definition (views/chatbot.py
lines 222-236): no rating validation and no `message_type` filter; the
submitted rating — whatever it is — is stored. -/
def rateMessageSecond (db : List MsgM) (message_id : Option String)
    (rating : Option ℤ) : ℕ × List MsgM :=
  match message_id with
  | none => (404, db)
  | some mid =>
    match db.find? (fun m => m.msg_id == mid) with
    | none => (404, db)
    | some _ => (200, setMsgRating db mid rating)

/-- The effective view: in Python the second `def rate_message` in the
same module rebinds the name, so the URLs resolve to the second
definition. -/
def rate_message (db : List MsgM) (message_id : Option String)
    (rating : Option ℤ) : ℕ × List MsgM :=
  rateMessageSecond db message_id rating

/-! ## Student ID generation (models.py 584-602) — claim C9 -/

/-- Python `f-string` formatting `{n:03d}` (for `n ≥ 1000` all digits are
printed, as in Python). -/
def pad3 (n : ℕ) : String :=
  if n < 10 then "00" ++ toString n
  else if n < 100 then "0" ++ toString n
  else toString n

/-- Byte-wise lexicographic comparison of strings, the binary collation
used when the database sorts `student_id` for `order_by(-student_id)`. -/
def charListLt : List Char → List Char → Bool
  | [], [] => false
  | [], _ :: _ => true
  | _ :: _, [] => false
  | x :: xs, y :: ys => if x < y then true else if y < x then false else charListLt xs ys

def strLt (a b : String) : Bool := charListLt a.data b.data

/-- The lexicographically greatest element of a list of strings
(`order_by(-student_id).first()`). -/
def lexMaxStr (l : List String) : Option String :=
  l.foldl (fun acc s =>
    match acc with
    | none => some s
    | some m => if strLt m s then some s else some m) none

/-- Python `s.startswith(pfx)`. -/
def listIsPref : List Char → List Char → Bool
  | [], _ => true
  | _ :: _, [] => false
  | a :: xs, b :: ys => a == b && listIsPref xs ys

def strStartsWith (pfx s : String) : Bool := listIsPref pfx.data s.data

/-- Python `s[-3:]` (for `n = 3`): the last `n` characters, or all of a
shorter string. -/
def strTakeRight (s : String) (n : ℕ) : String :=
  String.mk (s.data.drop (s.data.length - n))

/-- Python `int(s)` restricted to plain digit strings: `some` of the
value when every character is a digit, `none` (a `ValueError`)
otherwise. -/
def strToNat? (s : String) : Option ℕ :=
  if s.data.isEmpty then none
  else if s.data.all Char.isDigit then
    some (s.data.foldl (fun n c => n * 10 + (c.toNat - 48)) 0)
  else none

/-- Embedding of the ID-generation branch of `Student.save`: `year` is
`entry_session.name.split("/")[1]`, `dept` the department code and `ids`
the existing `student_id` column.  `none` models the `ValueError` raised
by `int(...)` when the last three characters of the retrieved maximal ID
are not digits. -/
def generateStudentId (year dept : String) (ids : List String) : Option String :=
  let pfx := year ++ dept
  let matching := ids.filter (fun s => strStartsWith pfx s)
  match lexMaxStr matching with
  | none => some (pfx ++ pad3 1)
  | some last_student =>
    match strToNat? (strTakeRight last_student 3) with
    | some n => some (pfx ++ pad3 (n + 1))
    | none => none

/-- Modelled from the claim's words (for comparison with the source):
the highest numeric 3-character suffix among the student IDs sharing the
`year ++ dept` prefix, `0` when there is none. -/
def claimHighestSuffix (year dept : String) (ids : List String) : ℕ :=
  ((ids.filter (fun s => strStartsWith (year ++ dept) s)).filterMap
    (fun s => strToNat? (strTakeRight s 3))).foldl Nat.max 0

/-- Modelled from the claim's words: the ID the claim says is assigned —
the prefix followed by one more than the highest existing suffix,
zero-padded to three digits. -/
def claimAssignedId (year dept : String) (ids : List String) : String :=
  (year ++ dept) ++ pad3 (claimHighestSuffix year dept ids + 1)

/-! ## TypesenseService.smart_chunk_text (typesense_service.py 620-657) — claim C4 -/

/-- Python `\s` for the ASCII range (space, tab, newline, carriage
return, vertical tab, form feed); the inputs at issue are ASCII. -/
def pyIsSpace (c : Char) : Bool :=
  c = ' ' || c = '\t' || c = '\n' || c = '\r' || c = Char.ofNat 11 || c = Char.ofNat 12

/-- The sentence-terminator class `[.!?]`. -/
def isSentTerm (c : Char) : Bool := c = '.' || c = '!' || c = '?'

theorem dropWhileLenLe (p : Char → Bool) (l : List Char) :
    (l.dropWhile p).length ≤ l.length := by
  induction l with
  | nil => simp [List.dropWhile]
  | cons c cs ih =>
    by_cases h : p c
    · simp only [List.dropWhile, h]
      exact Nat.le_succ_of_le ih
    · simp [List.dropWhile, h]

/-- Scanner for `re.split((?<=[.!?])\s+, text)`: a maximal whitespace run
immediately preceded by a sentence terminator is a delimiter and is
consumed; everything else accumulates into the current piece.  Like
`re.split`, the final (possibly empty) piece is always produced.  The
`skipping` flag is set while the delimiter's whitespace run is being
consumed (the accumulated piece is empty then). -/
def splitSentencesGo (cur : List Char) (skipping : Bool) : List Char → List (List Char)
  | [] => [cur]
  | c :: cs =>
    if skipping && pyIsSpace c then
      splitSentencesGo cur skipping cs
    else if pyIsSpace c && (match cur.getLast? with
                            | some d => isSentTerm d
                            | none => false) then
      cur :: splitSentencesGo [] true cs
    else
      splitSentencesGo (cur ++ [c]) false cs

def splitSentences (t : List Char) : List (List Char) := splitSentencesGo [] false t

/-- Python `str.split()` with no arguments: the maximal runs of
non-whitespace characters, in order. -/
def wordsGo (cur : List Char) : List Char → List (List Char)
  | [] => if cur = [] then [] else [cur]
  | c :: cs =>
    if pyIsSpace c then
      if cur = [] then wordsGo [] cs else cur :: wordsGo [] cs
    else wordsGo (cur ++ [c]) cs

def pyWords (s : List Char) : List (List Char) := wordsGo [] s

/-- Python `" ".join(ws)`. -/
def joinSp : List (List Char) → List Char
  | [] => []
  | [w] => w
  | w :: ws => w ++ ' ' :: joinSp ws

/-- Python `str.strip()`. -/
def pyStrip (s : List Char) : List Char :=
  ((s.dropWhile pyIsSpace).reverse.dropWhile pyIsSpace).reverse

/-- One produced chunk dictionary. -/
structure ChunkM where
  content : List Char
  size : ℕ
  chunk_id : ℕ
deriving Repr, DecidableEq

/-- Python `words[-overlap:] if len(words) > overlap else words`. -/
def overlapTail (overlap : ℕ) (ws : List (List Char)) : List (List Char) :=
  if ws.length > overlap then ws.drop (ws.length - overlap) else ws

/-- The loop body of `smart_chunk_text` acting on the state
`(chunks, current_chunk, current_size)`.  Both the split condition and
the `current_size` update follow the source, including the quirk that
`current_size` is incremented by one extra character per appended
sentence because the separator test reads the already-updated
`current_chunk`. -/
def chunkStep (chunkSize overlap : ℕ) : (List ChunkM × List Char × ℕ) → List Char →
    (List ChunkM × List Char × ℕ) :=
  fun st sentence =>
    let chunks := st.1
    let cur := st.2.1
    let curSize := st.2.2
    if curSize + sentence.length > chunkSize ∧ cur ≠ [] then
      let chunks2 := chunks ++ [⟨pyStrip cur, curSize, chunks.length⟩]
      if overlap > 0 then
        let ow := overlapTail overlap (pyWords cur)
        let cur2 := joinSp ow ++ ' ' :: sentence
        (chunks2, cur2, cur2.length)
      else
        (chunks2, sentence, sentence.length)
    else
      let cur2 := cur ++ (if cur = [] then [] else [' ']) ++ sentence
      (chunks, cur2, curSize + sentence.length + (if cur2 = [] then 0 else 1))

/-- Embedding of `smart_chunk_text`. -/
def smart_chunk_text (text : String) (chunkSize overlap : ℕ) : List ChunkM :=
  let sentences := splitSentences text.data
  let st := sentences.foldl (chunkStep chunkSize overlap) ([], [], 0)
  if pyStrip st.2.1 ≠ [] then
    st.1 ++ [⟨pyStrip st.2.1, st.2.2, st.1.length⟩]
  else st.1

/-- Overlap seed carried into the chunk following one whose recorded
content is `pc`: the last at-most-`o` words of `pc`, joined by single
spaces. -/
def seedOf (o : ℕ) (pc : List Char) : List Char := joinSp (overlapTail o (pyWords pc))

/-- Relation between produced chunks and a partition of the sentence
sequence into one group per chunk: the first chunk's content is its
group joined by spaces and trimmed, and every later chunk's content is
the trim of the previous chunk's overlap seed, a space, and its own
group joined by spaces. -/
def chunksMatch (o : ℕ) : Option (List Char) → List ChunkM → List (List (List Char)) → Prop
  | _, [], gs => gs = []
  | prev, c :: cs, gs =>
    match gs with
    | [] => False
    | g :: gs2 =>
      (c.content = match prev with
        | none => pyStrip (joinSp g)
        | some pc => pyStrip (seedOf o pc ++ ' ' :: joinSp g))
      ∧ chunksMatch o (some c.content) cs gs2

/-- Whitespace-only character list. -/
def allWs (l : List Char) : Prop := ∀ c ∈ l, pyIsSpace c = true

/-- Sentence lists as produced by the splitter: only the final piece may
be empty. -/
def SentOK : List (List Char) → Prop
  | [] => True
  | [_] => True
  | x :: y :: rest => x ≠ [] ∧ SentOK (y :: rest)

/-- The content of the chunk that precedes a position: the last already
closed chunk's content, else the inherited predecessor. -/
def lastContentOpt (prev : Option (List Char)) (cs : List ChunkM) : Option (List Char) :=
  match cs.getLast? with
  | some c => some c.content
  | none => prev

/-- Relation between the running `current_chunk` and the pending group of
sentences: before any chunk closes the running chunk is the pending
sentences joined by spaces; afterwards it is the last closed chunk's
overlap seed, a space, and the pending sentences joined by spaces. -/
def curOK (o : ℕ) (chunks : List ChunkM) (cur : List Char) (cg : List (List Char)) : Prop :=
  match chunks.getLast? with
  | none => cur = joinSp cg
  | some c => cg ≠ [] ∧ cur = seedOf o c.content ++ ' ' :: joinSp cg

/-- Loop invariant of `smart_chunk_text` after the processed sentences
`done`, without the emptiness side condition. -/
def invOK0 (o : ℕ) (st : List ChunkM × List Char × ℕ) (done : List (List Char)) : Prop :=
  ∃ gs cg, done = gs.flatten ++ cg ∧ chunksMatch o none st.1 gs ∧
    curOK o st.1 st.2.1 cg ∧
    st.1.map (fun c => c.chunk_id) = List.range st.1.length

/-- Loop invariant of `smart_chunk_text`, with the side condition that an
empty running chunk means no pending sentences. -/
def invOK (o : ℕ) (st : List ChunkM × List Char × ℕ) (done : List (List Char)) : Prop :=
  ∃ gs cg, done = gs.flatten ++ cg ∧ chunksMatch o none st.1 gs ∧
    curOK o st.1 st.2.1 cg ∧
    st.1.map (fun c => c.chunk_id) = List.range st.1.length ∧
    (st.2.1 = [] → cg = [])

/-! ## Helper lemmas -/

/-- Case normal form of `resultSave`: the update written as one six-way
band split. -/
theorem resultSave_spec (course : CourseM) (r : ResultM) :
    resultSave course r =
      (if 70 ≤ r.ca_score + r.exam_score then
        { r with total_score := r.ca_score + r.exam_score, grade := "A",
                 grade_point := 5, credit_earned := course.credits, status := "PASSED" }
      else if 60 ≤ r.ca_score + r.exam_score then
        { r with total_score := r.ca_score + r.exam_score, grade := "B",
                 grade_point := 4, credit_earned := course.credits, status := "PASSED" }
      else if 50 ≤ r.ca_score + r.exam_score then
        { r with total_score := r.ca_score + r.exam_score, grade := "C",
                 grade_point := 3, credit_earned := course.credits, status := "PASSED" }
      else if 45 ≤ r.ca_score + r.exam_score then
        { r with total_score := r.ca_score + r.exam_score, grade := "D",
                 grade_point := 2, credit_earned := course.credits, status := "PASSED" }
      else if 40 ≤ r.ca_score + r.exam_score then
        { r with total_score := r.ca_score + r.exam_score, grade := "E",
                 grade_point := 1, credit_earned := course.credits, status := "PASSED" }
      else
        { r with total_score := r.ca_score + r.exam_score, grade := "F",
                 grade_point := 0, credit_earned := 0, status := "FAILED" }) := by
  dsimp only [resultSave]
  split_ifs <;> first | rfl | simp_all

/-! ## Claim theorems -/

/-- C1: saving a Result with CA score in [0,30] and exam score in [0,70]
sets `total_score = ca + exam`, assigns the grade and grade point by the
bands (≥70 A/5.0, ≥60 B/4.0, ≥50 C/3.0, ≥45 D/2.0, ≥40 E/1.0, else
F/0.0), and sets `credit_earned` to the course's credits with status
PASSED exactly when the grade is not F, else 0 and FAILED. -/
theorem C1_result_save_grading (course : CourseM) (r : ResultM)
    (hca0 : 0 ≤ r.ca_score) (hca1 : r.ca_score ≤ 30)
    (hex0 : 0 ≤ r.exam_score) (hex1 : r.exam_score ≤ 70) :
    (resultSave course r).total_score = r.ca_score + r.exam_score ∧
    (70 ≤ r.ca_score + r.exam_score →
      (resultSave course r).grade = "A" ∧ (resultSave course r).grade_point = 5) ∧
    (60 ≤ r.ca_score + r.exam_score ∧ r.ca_score + r.exam_score < 70 →
      (resultSave course r).grade = "B" ∧ (resultSave course r).grade_point = 4) ∧
    (50 ≤ r.ca_score + r.exam_score ∧ r.ca_score + r.exam_score < 60 →
      (resultSave course r).grade = "C" ∧ (resultSave course r).grade_point = 3) ∧
    (45 ≤ r.ca_score + r.exam_score ∧ r.ca_score + r.exam_score < 50 →
      (resultSave course r).grade = "D" ∧ (resultSave course r).grade_point = 2) ∧
    (40 ≤ r.ca_score + r.exam_score ∧ r.ca_score + r.exam_score < 45 →
      (resultSave course r).grade = "E" ∧ (resultSave course r).grade_point = 1) ∧
    (r.ca_score + r.exam_score < 40 →
      (resultSave course r).grade = "F" ∧ (resultSave course r).grade_point = 0) ∧
    ((resultSave course r).grade ≠ "F" →
      (resultSave course r).credit_earned = course.credits ∧
      (resultSave course r).status = "PASSED") ∧
    ((resultSave course r).grade = "F" →
      (resultSave course r).credit_earned = 0 ∧
      (resultSave course r).status = "FAILED") := by
  rw [resultSave_spec]
  split_ifs with h70 h60 h50 h45 h40 <;>
    refine ⟨rfl, fun h => ?_, fun h => ?_, fun h => ?_, fun h => ?_, fun h => ?_,
      fun h => ?_, fun h => ?_, fun h => ?_⟩ <;>
    first
      | exact ⟨rfl, rfl⟩
      | (exfalso; rcases h with ⟨hx, hy⟩; linarith)
      | (exfalso; linarith)
      | (exfalso; simp at h)

/-- C1 witness: a concrete save (`ca = 25`, `exam = 50`) satisfying all
hypotheses, with the bands evaluated. -/
theorem C1_result_save_grading_witness :
    (resultSave ⟨3⟩ ⟨25, 50, 0, "", 0, 0, "PENDING"⟩).grade = "A" ∧
    (resultSave ⟨3⟩ ⟨25, 50, 0, "", 0, 0, "PENDING"⟩).grade_point = 5 := by
  have h := C1_result_save_grading ⟨3⟩ ⟨25, 50, 0, "", 0, 0, "PENDING"⟩
    (by norm_num) (by norm_num) (by norm_num) (by norm_num)
  exact h.2.1 (by norm_num)

/-- C10: every save of a Result persists status PASSED or FAILED — the
save overwrites any caller-assigned status, so the declared choices
PENDING and RETAKE (including the field default PENDING) can never
survive a save. -/
theorem C10_result_status_invariant (course : CourseM) (r : ResultM) :
    ((resultSave course r).status = "PASSED" ∨ (resultSave course r).status = "FAILED") ∧
    ((resultSave course r).grade ≠ "F" → (resultSave course r).status = "PASSED") ∧
    ((resultSave course r).grade = "F" → (resultSave course r).status = "FAILED") ∧
    (resultSave course r).status ≠ "PENDING" ∧
    (resultSave course r).status ≠ "RETAKE" ∧
    (∀ s0 : String, resultSave course { r with status := s0 } = resultSave course r) ∧
    "PENDING" ∈ resultStatusChoices ∧ "RETAKE" ∈ resultStatusChoices := by
  refine ⟨?_, ?_, ?_, ?_, ?_, fun s0 => rfl, by simp [resultStatusChoices], by simp [resultStatusChoices]⟩ <;>
    rw [resultSave_spec] <;> split_ifs <;> simp

/-- C10 witness: the concrete failing save carries status FAILED. -/
theorem C10_result_status_invariant_witness :
    (resultSave ⟨2⟩ ⟨10, 20, 0, "", 0, 0, "PENDING"⟩).status = "FAILED" := by
  have h := C10_result_status_invariant ⟨2⟩ ⟨10, 20, 0, "", 0, 0, "PENDING"⟩
  exact h.2.2.1 (by rw [resultSave_spec]; norm_num)

/-- Accumulation of the `calculate_cgpa` loop as the two sums. -/
theorem cgpaFoldl_eq_sums (l : List ResultRowM) (a : ℚ) (b : ℕ) :
    l.foldl (fun acc r => (acc.1 + r.grade_point * (r.credits : ℚ), acc.2 + r.credits)) (a, b) =
      (a + (l.map (fun r => r.grade_point * (r.credits : ℚ))).sum,
       b + (l.map (fun r => r.credits)).sum) := by
  induction l generalizing a b with
  | nil => simp
  | cons r t ih =>
    simp only [List.foldl_cons, List.map_cons, List.sum_cons, ih, Prod.mk.injEq]
    constructor
    · ring
    · omega

/-- Positivity of a sum of credits that are each at least 1, over a
nonempty list. -/
theorem creditsSumPos (l : List ResultRowM) (hne : l ≠ [])
    (hcr : ∀ r ∈ l, 1 ≤ r.credits) :
    0 < (l.map (fun r => r.credits)).sum := by
  cases l with
  | nil => exact absurd rfl hne
  | cons r t =>
    have h1 : 1 ≤ r.credits := hcr r (List.mem_cons_self r t)
    simp only [List.map_cons, List.sum_cons]
    omega

/-- C2: `calculate_cgpa` over the finalized results returns the credit-
weighted grade-point average rounded to two decimal places (ties to
even, as `Decimal.quantize` does) and persists it with the credit sum;
with zero finalized results it returns 0.00 and short-circuits before
any division is reached, so no division-by-zero error can occur (the
`none` persistence component witnesses the early return). -/
theorem C2_calculate_cgpa (results : List ResultRowM) :
    (results.filter (fun r => r.is_final) = [] → calculateCgpa results = (0, none)) ∧
    (results.filter (fun r => r.is_final) ≠ [] →
     (∀ r ∈ results.filter (fun r => r.is_final), 1 ≤ r.credits) →
     calculateCgpa results =
       (quantize2
          (((results.filter (fun r => r.is_final)).map
              (fun r => r.grade_point * (r.credits : ℚ))).sum /
            ((((results.filter (fun r => r.is_final)).map (fun r => r.credits)).sum : ℕ) : ℚ)),
        some
          (quantize2
            (((results.filter (fun r => r.is_final)).map
                (fun r => r.grade_point * (r.credits : ℚ))).sum /
              ((((results.filter (fun r => r.is_final)).map (fun r => r.credits)).sum : ℕ) : ℚ)),
           ((results.filter (fun r => r.is_final)).map (fun r => r.credits)).sum))) := by
  constructor
  · intro h
    simp only [calculateCgpa, h, List.isEmpty_nil, if_true]
  · intro hne hcr
    have hpos := creditsSumPos _ hne hcr
    simp only [calculateCgpa, cgpaFoldl_eq_sums, zero_add]
    rw [if_neg (by simpa [List.isEmpty_iff] using hne), if_pos hpos]

/-- C2 witness: two finalized results (A in a 3-credit course, B in a
3-credit course) produce CGPA 4.50 with 6 credits persisted. -/
theorem C2_calculate_cgpa_witness :
    calculateCgpa [⟨5, 3, true⟩, ⟨4, 3, true⟩] = (9/2, some (9/2, 6)) := by
  have h := (C2_calculate_cgpa [⟨5, 3, true⟩, ⟨4, 3, true⟩]).2 (by decide)
    (by decide)
  rw [h]
  norm_num [quantize2, roundHalfEven]

/-- After the bulk update, no row keeps the current flag. -/
theorem clearCurrentFlags_all_false (db : List SessionRow) :
    ∀ r ∈ clearCurrentFlags db, r.is_current = false := by
  intro r hr
  simp only [clearCurrentFlags, List.mem_map] at hr
  obtain ⟨x, _, rfl⟩ := hr
  by_cases h : x.is_current <;> simp [h]

/-- The bulk update does not touch primary keys. -/
theorem clearCurrentFlags_rids (db : List SessionRow) :
    (clearCurrentFlags db).map (fun r => r.rid) = db.map (fun r => r.rid) := by
  induction db with
  | nil => rfl
  | cons r t ih =>
    simp only [clearCurrentFlags, List.map_cons] at ih ⊢
    rw [ih]
    by_cases h : r.is_current <;> simp [h]

/-- Replacing the (unique) row with the saved primary key in an
all-non-current table leaves exactly the saved row current. -/
theorem replaceRow_filter (s : SessionRow) (hs : s.is_current = true) :
    ∀ c : List SessionRow, (∀ r ∈ c, r.is_current = false) →
    ((c.map (fun r => r.rid)).Nodup) →
    c.any (fun r => r.rid == s.rid) = true →
    (c.map (fun r => if r.rid == s.rid then s else r)).filter
      (fun r => r.is_current) = [s] := by
  intro c
  induction c with
  | nil => intro _ _ h; simp at h
  | cons r t ih =>
    intro hall hnd hany
    simp only [List.map_cons, List.nodup_cons] at hnd
    by_cases hr : r.rid == s.rid
    · have hrid : r.rid = s.rid := by simpa using hr
      have htid : ∀ x ∈ t, (x.rid == s.rid) = false := by
        intro x hx
        have : x.rid ≠ r.rid := by
          intro hxr
          exact hnd.1 (by rw [← hxr]; exact List.mem_map_of_mem (fun r => r.rid) hx)
        simp [hrid ▸ this]
      have hmap : t.map (fun x => if x.rid == s.rid then s else x) = t.map id :=
        List.map_congr_left (by intro x hx; simp [htid x hx])
      have hfil : t.filter (fun r => r.is_current) = [] := by
        rw [List.filter_eq_nil_iff]
        intro x hx
        simp [hall x (List.mem_cons_of_mem r hx)]
      simp only [List.map_cons, hr, if_true, hmap, List.map_id, List.filter_cons, hs]
      simp [hfil]
    · have hany2 : t.any (fun r => r.rid == s.rid) = true := by
        simp only [List.any_cons, hr, Bool.false_or] at hany
        exact hany
      have hrf : r.is_current = false := hall r (List.mem_cons_self r t)
      have hne : r.rid ≠ s.rid := by simpa using hr
      simpa [hne, hrf] using ih (fun x hx => hall x (List.mem_cons_of_mem r hx)) hnd.2 hany2

/-- Saving into an all-non-current table leaves exactly the saved row
current. -/
theorem ormSave_filter (c : List SessionRow) (s : SessionRow)
    (hs : s.is_current = true)
    (hall : ∀ r ∈ c, r.is_current = false)
    (hnd : (c.map (fun r => r.rid)).Nodup) :
    (ormSave c s).filter (fun r => r.is_current) = [s] := by
  unfold ormSave
  by_cases hany : c.any (fun r => r.rid == s.rid) = true
  · rw [if_pos hany]
    exact replaceRow_filter s hs c hall hnd hany
  · rw [if_neg hany, List.filter_append]
    have hfil : c.filter (fun r => r.is_current) = [] := by
      rw [List.filter_eq_nil_iff]
      intro x hx
      simp [hall x hx]
    simp [hfil, hs]

/-- C3: saving an `AcademicSession` (resp. `Semester`) with
`is_current = true` leaves exactly one current row — the saved one —
no matter how many rows held the flag before. -/
theorem C3_single_current (db : List SessionRow) (s : SessionRow)
    (hs : s.is_current = true)
    (hnd : (db.map (fun r => r.rid)).Nodup) :
    (academicSessionSave db s).filter (fun r => r.is_current) = [s] ∧
    (semesterSave db s).filter (fun r => r.is_current) = [s] := by
  have key : (ormSave (clearCurrentFlags db) s).filter (fun r => r.is_current) = [s] := by
    apply ormSave_filter _ _ hs (clearCurrentFlags_all_false db)
    rw [clearCurrentFlags_rids]
    exact hnd
  constructor
  · unfold academicSessionSave
    rw [if_pos hs]
    exact key
  · unfold semesterSave
    rw [if_pos hs]
    exact key

/-- C3 witness: two sessions already current, a third saved current —
afterwards the third is the single current row (for both entity kinds). -/
theorem C3_single_current_witness :
    (academicSessionSave [⟨1, true⟩, ⟨2, true⟩] ⟨3, true⟩).filter
      (fun r => r.is_current) = [⟨3, true⟩] ∧
    (semesterSave [⟨1, true⟩, ⟨2, true⟩] ⟨3, true⟩).filter
      (fun r => r.is_current) = [⟨3, true⟩] :=
  C3_single_current [⟨1, true⟩, ⟨2, true⟩] ⟨3, true⟩ rfl (by decide)

/-- C5: `execute_tool` never propagates an exception: an unregistered
name yields the failure envelope carrying `Unknown tool: <name>` and the
list of valid names; a registered tool returning normally yields the
success envelope with the tool name, data and timestamp; a registered
tool raising yields the failure envelope with the exception text and
the tool name.  Totality of `executeTool` is the no-propagation claim. -/
theorem C5_execute_tool_envelope
    (impl : String → ToolParams → Except String ToolData)
    (now tool_name : String) (ps : ToolParams) :
    (tool_name ∉ availableToolNames →
      executeTool impl now tool_name ps =
        { success := false, error := some ("Unknown tool: " ++ tool_name),
          available_tools := some availableToolNames,
          tool := none, data := none, timestamp := none }) ∧
    (tool_name ∈ availableToolNames →
      ∀ d, impl tool_name ps = Except.ok d →
        executeTool impl now tool_name ps =
          { success := true, error := none, available_tools := none,
            tool := some tool_name, data := some d, timestamp := some now }) ∧
    (tool_name ∈ availableToolNames →
      ∀ e, impl tool_name ps = Except.error e →
        executeTool impl now tool_name ps =
          { success := false, error := some e, available_tools := none,
            tool := some tool_name, data := none, timestamp := none }) := by
  refine ⟨fun hout => ?_, fun hin d hd => ?_, fun hin e he => ?_⟩
  · simp only [executeTool, if_neg hout]
  · simp only [executeTool, if_pos hin, hd]
  · simp only [executeTool, if_pos hin, he]

/-- C5 witness: the three envelopes at concrete inputs. -/
theorem C5_execute_tool_envelope_witness :
    executeTool (fun _ _ => Except.ok "profile") "t0" "get_student_profile" [] =
      { success := true, error := none, available_tools := none,
        tool := some "get_student_profile", data := some "profile",
        timestamp := some "t0" } ∧
    executeTool (fun _ _ => Except.ok "x") "t0" "bogus_tool" [] =
      { success := false, error := some ("Unknown tool: " ++ "bogus_tool"),
        available_tools := some availableToolNames,
        tool := none, data := none, timestamp := none } ∧
    executeTool (fun _ _ => Except.error "Student not found") "t0" "get_student_cgpa" [] =
      { success := false, error := some "Student not found",
        available_tools := none, tool := some "get_student_cgpa",
        data := none, timestamp := none } :=
  ⟨(C5_execute_tool_envelope (fun _ _ => Except.ok "profile") "t0" "get_student_profile" []).2.1
      (by decide) "profile" rfl,
   (C5_execute_tool_envelope (fun _ _ => Except.ok "x") "t0" "bogus_tool" []).1 (by decide),
   (C5_execute_tool_envelope (fun _ _ => Except.error "Student not found") "t0" "get_student_cgpa" []).2.2
      (by decide) "Student not found" rfl⟩

/-- Membership in the completed-courses queryset, spelled out. -/
theorem completedCourseCodes_mem (results : List StudentResultM) (c : String) :
    c ∈ completedCourseCodes results ↔
      ∃ r ∈ results, r.is_final = true ∧ (1 : ℚ) ≤ r.grade_point ∧ r.course_code = c := by
  simp only [completedCourseCodes, List.mem_map, List.mem_filter,
    Bool.and_eq_true, decide_eq_true_eq]
  constructor
  · rintro ⟨r, ⟨hr, hgp, hf⟩, rfl⟩
    exact ⟨r, hr, hf, hgp, rfl⟩
  · rintro ⟨r, hr, hf, hgp, rfl⟩
    exact ⟨r, ⟨hr, hgp, hf⟩, rfl⟩

/-- C6: with no prerequisites the check short-circuits to eligible with
an empty missing list; with prerequisites, eligibility fails exactly
when some prerequisite code is absent from the student's finalized
results with grade point at least 1.0, the missing list holding exactly
the unmet prerequisites and the completed list exactly the met ones. -/
theorem C6_check_prerequisites (prereqs : List PrereqCourseM)
    (results : List StudentResultM) :
    (prereqs = [] →
      (checkPrerequisites prereqs results).eligible = true ∧
      (checkPrerequisites prereqs results).missing_prerequisites = []) ∧
    (prereqs ≠ [] →
      ((checkPrerequisites prereqs results).eligible = false ↔
        ∃ p ∈ prereqs,
          ¬∃ r ∈ results, r.is_final = true ∧ (1 : ℚ) ≤ r.grade_point ∧
            r.course_code = p.code) ∧
      (∀ p, p ∈ (checkPrerequisites prereqs results).missing_prerequisites ↔
        p ∈ prereqs ∧
          ¬∃ r ∈ results, r.is_final = true ∧ (1 : ℚ) ≤ r.grade_point ∧
            r.course_code = p.code) ∧
      ((checkPrerequisites prereqs results).completed_prerequisites =
        some ((prereqs.filter
          (fun p => (completedCourseCodes results).contains p.code)).map
            (fun p => (p.code, p.title))))) := by
  constructor
  · intro h
    subst h
    simp [checkPrerequisites]
  · intro hne
    have hemp : prereqs.isEmpty = false := by simpa [List.isEmpty_iff] using hne
    have hmem_iff : ∀ p : PrereqCourseM,
        (p.code ∈ completedCourseCodes results) ↔
        ∃ r ∈ results, r.is_final = true ∧ (1 : ℚ) ≤ r.grade_point ∧
          r.course_code = p.code :=
      fun p => completedCourseCodes_mem results p.code
    refine ⟨?_, ?_, ?_⟩
    · simp only [checkPrerequisites, hemp, Bool.false_eq_true, if_false]
      constructor
      · intro h
        have hne2 : prereqs.filter
            (fun p => !((completedCourseCodes results).contains p.code)) ≠ [] := by
          intro hf
          rw [hf] at h
          simp at h
        obtain ⟨p, hp⟩ := List.exists_mem_of_ne_nil _ hne2
        obtain ⟨hp1, hp2⟩ := List.mem_filter.mp hp
        refine ⟨p, hp1, fun hex => ?_⟩
        have hmem : p.code ∈ completedCourseCodes results := (hmem_iff p).mpr hex
        simp [hmem] at hp2
      · rintro ⟨p, hp, habs⟩
        have hnotmem : p.code ∉ completedCourseCodes results :=
          fun hmem => habs ((hmem_iff p).mp hmem)
        have hpf : p ∈ prereqs.filter
            (fun q => !((completedCourseCodes results).contains q.code)) :=
          List.mem_filter.mpr ⟨hp, by simp [hnotmem]⟩
        cases hfe : prereqs.filter
            (fun q => !((completedCourseCodes results).contains q.code)) with
        | nil => rw [hfe] at hpf; cases hpf
        | cons a t => simp
    · intro p
      simp only [checkPrerequisites, hemp, Bool.false_eq_true, if_false,
        List.mem_filter]
      constructor
      · rintro ⟨hp, hcon⟩
        refine ⟨hp, fun hex => ?_⟩
        have hmem : p.code ∈ completedCourseCodes results := (hmem_iff p).mpr hex
        simp [hmem] at hcon
      · rintro ⟨hp, habs⟩
        have hnotmem : p.code ∉ completedCourseCodes results :=
          fun hmem => habs ((hmem_iff p).mp hmem)
        exact ⟨hp, by simp [hnotmem]⟩
    · simp only [checkPrerequisites, hemp, Bool.false_eq_true, if_false]

/-- C6 witness: one met and one unmet prerequisite, plus the
no-prerequisite short-circuit. -/
theorem C6_check_prerequisites_witness :
    (checkPrerequisites [⟨"CSC101", "Intro I", 3⟩, ⟨"CSC102", "Intro II", 3⟩]
        [⟨"CSC101", 5, true⟩, ⟨"CSC102", 0, true⟩]).eligible = false ∧
    (checkPrerequisites [] [⟨"CSC101", 5, true⟩]).eligible = true := by
  constructor
  · have h := (C6_check_prerequisites
      [⟨"CSC101", "Intro I", 3⟩, ⟨"CSC102", "Intro II", 3⟩]
      [⟨"CSC101", 5, true⟩, ⟨"CSC102", 0, true⟩]).2 (by decide)
    rw [h.1]
    refine ⟨⟨"CSC102", "Intro II", 3⟩, by decide, ?_⟩
    rintro ⟨r, hr, hf, hgp, hcode⟩
    simp only [List.mem_cons, List.mem_singleton, List.not_mem_nil, or_false] at hr
    rcases hr with rfl | rfl
    · exact absurd hcode (by decide)
    · norm_num at hgp
  · exact ((C6_check_prerequisites [] [⟨"CSC101", 5, true⟩]).1 rfl).1

/-- C7 evaluation at the failing input: a 56-character response that
contains the indicator phrase `I don't have access` verbatim, with no
tool failures, is NOT flagged for escalation by the code — the stage
lower-cases the response before matching the mixed-case indicator, so
that indicator can never match.  The claim (and the source's own
indicator list) says such a response must set `escalation_needed`. -/
theorem C7_check_escalation_code_bug :
    checkEscalation
      ("I don".data ++ [aposChar] ++
        "t have access to the examination records database.".data) [] = false ∧
    containsSubstr ("I don".data ++ [aposChar] ++ "t have access".data)
      ("I don".data ++ [aposChar] ++
        "t have access to the examination records database.".data) = true ∧
    50 ≤ ("I don".data ++ [aposChar] ++
      "t have access to the examination records database.".data).length ∧
    ("I don".data ++ [aposChar] ++ "t have access".data) ∈ escalationIndicators := by
  refine ⟨by decide, by decide, by decide, by decide⟩

/-- C8 evaluation at the failing input: the module's second
`rate_message` definition shadows the validating first one, so the
effective view accepts the out-of-range rating 5 on an existing bot
message, stores it and answers success, while the shadowed first
definition would have rejected it with HTTP 400 and left the rating
unchanged.  The claim (and `Message.RATING_CHOICES`) allows only 1
and 2. -/
theorem C8_rate_message_code_bug :
    rate_message [⟨"m1", "bot", none⟩] (some "m1") (some 5) =
      (200, [⟨"m1", "bot", some 5⟩]) ∧
    rateMessageFirst [⟨"m1", "bot", none⟩] (some "m1") (some 5) =
      (400, [⟨"m1", "bot", none⟩]) ∧
    ¬((5 : ℤ) = 1 ∨ (5 : ℤ) = 2) := by
  refine ⟨by decide, by decide, by decide⟩

/-- C9 counterexample: with existing IDs `2024CS100` (year 2024,
department CS) and `2024CSC001` (year 2024, department CSC), creating a
CS student takes the lexicographically greatest prefix-match
`2024CSC001`, reads suffix 001 and assigns `2024CS002`, while the
claim's `highest existing suffix + 1` rule would assign `2024CS101`. -/
theorem C9_counterexample :
    generateStudentId "2024" "CS" ["2024CS100", "2024CSC001"] = some "2024CS002" ∧
    claimAssignedId "2024" "CS" ["2024CS100", "2024CSC001"] = "2024CS101" ∧
    ("2024CS002" : String) ≠ "2024CS101" := by
  refine ⟨by decide, by decide, by decide⟩

/-- C9 as amended: when no existing ID shares the `year ++ dept` prefix
the first generated ID is the prefix plus `001`; otherwise the assigned
suffix is one more than the number formed by the last three characters
of the lexicographically greatest prefix-sharing ID (generation raises,
modelled as `none`, when those characters are not digits). -/
theorem C9_student_id_amended (year dept : String) (ids : List String) :
    (ids.filter (fun s => strStartsWith (year ++ dept) s) = [] →
      generateStudentId year dept ids = some ((year ++ dept) ++ pad3 1)) ∧
    (∀ m n, lexMaxStr (ids.filter (fun s => strStartsWith (year ++ dept) s)) = some m →
      strToNat? (strTakeRight m 3) = some n →
      generateStudentId year dept ids = some ((year ++ dept) ++ pad3 (n + 1))) ∧
    (∀ m, lexMaxStr (ids.filter (fun s => strStartsWith (year ++ dept) s)) = some m →
      strToNat? (strTakeRight m 3) = none →
      generateStudentId year dept ids = none) := by
  refine ⟨fun h => ?_, fun m n hm hn => ?_, fun m hm hn => ?_⟩
  · simp only [generateStudentId, h, lexMaxStr, List.foldl_nil]
  · simp only [generateStudentId, hm, hn]
  · simp only [generateStudentId, hm, hn]

/-- C9 witness: no prior IDs gives `24CSC001`; that single ID then gives
`24CSC002`. -/
theorem C9_student_id_amended_witness :
    generateStudentId "24" "CSC" [] = some "24CSC001" ∧
    generateStudentId "24" "CSC" ["24CSC001"] = some "24CSC002" := by
  constructor
  · have h := (C9_student_id_amended "24" "CSC" []).1 rfl
    rw [h]
    decide
  · have h := (C9_student_id_amended "24" "CSC" ["24CSC001"]).2.1 "24CSC001" 1
      (by decide) (by decide)
    rw [h]
    decide

/-- C4 counterexample: `A.  B.` is 6 characters (under 1500), strips to
itself, yet `smart_chunk_text` returns the single chunk `A. B.` — the
two spaces between the sentences are collapsed to one, so the chunk is
not the whitespace-trimmed input. -/
theorem C4_counterexample :
    ("A.  B.".data.length < 1500) ∧
    smart_chunk_text "A.  B." 1500 200 = [⟨"A. B.".data, 6, 0⟩] ∧
    pyStrip "A.  B.".data = "A.  B.".data ∧
    "A. B.".data ≠ "A.  B.".data := by
  refine ⟨by decide, by decide, by decide, by decide⟩


/-! ### joinSp toolkit -/

theorem joinSp_cons (w : List Char) (ws : List (List Char)) (h : ws ≠ []) :
    joinSp (w :: ws) = w ++ ' ' :: joinSp ws := by
  cases ws with
  | nil => exact absurd rfl h
  | cons x t => rfl

theorem joinSp_snoc (ws : List (List Char)) (s : List Char) (h : ws ≠ []) :
    joinSp (ws ++ [s]) = joinSp ws ++ ' ' :: s := by
  induction ws with
  | nil => exact absurd rfl h
  | cons w t ih =>
    cases t with
    | nil => rfl
    | cons x u =>
      rw [List.cons_append, joinSp_cons _ _ (by simp), joinSp_cons _ _ (by simp),
        ih (by simp)]
      simp

theorem joinSp_length_cons (w : List Char) (ws : List (List Char)) (h : ws ≠ []) :
    (joinSp (w :: ws)).length = w.length + 1 + (joinSp ws).length := by
  rw [joinSp_cons w ws h]
  simp only [List.length_append, List.length_cons]
  omega

theorem joinSp_length_le_append (p q : List (List Char)) :
    (joinSp p).length ≤ (joinSp (p ++ q)).length := by
  induction p with
  | nil => simp [joinSp]
  | cons w t ih =>
    by_cases ht : t = []
    · subst ht
      cases q with
      | nil => simp
      | cons x u =>
        rw [List.singleton_append, joinSp_length_cons w (x :: u) (by simp)]
        have : joinSp [w] = w := rfl
        rw [this]
        omega
    · have htq : t ++ q ≠ [] := fun hc => ht (List.append_eq_nil.mp hc).1
      rw [List.cons_append, joinSp_length_cons w t ht, joinSp_length_cons w (t ++ q) htq]
      omega

theorem joinSp_head_length_le (s : List Char) (rest : List (List Char)) :
    s.length ≤ (joinSp (s :: rest)).length := by
  have h := joinSp_length_le_append [s] rest
  simpa [joinSp] using h

theorem joinSp_glue (a b : List Char) (l : List (List Char)) :
    joinSp ((a ++ ' ' :: b) :: l) = joinSp (a :: b :: l) := by
  cases l with
  | nil => rfl
  | cons x u =>
    rw [joinSp_cons _ (x :: u) (by simp), joinSp_cons a (b :: x :: u) (by simp),
      joinSp_cons b (x :: u) (by simp)]
    simp

/-! ### splitSentences toolkit -/

theorem splitGo_ne_nil (cur : List Char) (b : Bool) (rest : List Char) :
    splitSentencesGo cur b rest ≠ [] := by
  induction rest generalizing cur b with
  | nil => simp [splitSentencesGo]
  | cons c cs ih =>
    rw [splitSentencesGo]
    split
    · exact ih cur b
    · split
      · simp
      · exact ih (cur ++ [c]) false

theorem splitGo_join_length (rest : List Char) (cur : List Char) (b : Bool) :
    (joinSp (splitSentencesGo cur b rest)).length ≤ cur.length + rest.length := by
  induction rest generalizing cur b with
  | nil => simp [splitSentencesGo, joinSp]
  | cons c cs ih =>
    rw [splitSentencesGo]
    split
    · have h := ih cur b
      simp only [List.length_cons]
      omega
    · split
      · rw [joinSp_length_cons _ _ (splitGo_ne_nil _ _ _)]
        have h := ih [] true
        simp only [List.length_nil, List.length_cons] at h ⊢
        omega
      · have h := ih (cur ++ [c]) false
        simp only [List.length_append, List.length_cons, List.length_nil] at h ⊢
        omega

/-- Every piece of the splitter's output except possibly the last is
nonempty: interior pieces are flushed only with a terminator as their
last character. -/
theorem splitGo_sentOK (rest : List Char) (cur : List Char) (b : Bool) :
    SentOK (splitSentencesGo cur b rest) := by
  induction rest generalizing cur b with
  | nil => simp [splitSentencesGo, SentOK]
  | cons c cs ih =>
    rw [splitSentencesGo]
    split
    · exact ih cur b
    · split
      · rename_i hterm
        have hcur : cur ≠ [] := by
          intro hnil
          subst hnil
          simp at hterm
        rcases hsp : splitSentencesGo [] true cs with _ | ⟨x, t⟩
        · exact absurd hsp (splitGo_ne_nil _ _ _)
        · have := ih [] true
          rw [hsp] at this
          exact ⟨hcur, this⟩
      · exact ih (cur ++ [c]) false

/-- When the splitter's first piece is empty it is the only piece. -/
theorem splitGo_head_nil (rest : List Char) (cur : List Char) (b : Bool)
    (t : List (List Char)) (h : splitSentencesGo cur b rest = [] :: t) :
    cur = [] ∧ t = [] := by
  induction rest generalizing cur b with
  | nil =>
    rw [splitSentencesGo] at h
    have h1 := (List.cons.injEq _ _ _ _ ▸ h).1
    have h2 := (List.cons.injEq _ _ _ _ ▸ h).2
    exact ⟨h1, h2.symm⟩
  | cons c cs ih =>
    rw [splitSentencesGo] at h
    split at h
    · exact ih cur b h
    · split at h
      · rename_i hterm
        have hcur : cur ≠ [] := by
          intro hnil
          subst hnil
          simp at hterm
        exact absurd (List.cons.injEq _ _ _ _ ▸ h).1 hcur
      · have := (ih (cur ++ [c]) false h).1
        simp at this

/-! ### pyWords and pyStrip toolkit -/

theorem wordsGo_allWs (t : List Char) (h : allWs t) (cur : List Char) :
    wordsGo cur t = if cur = [] then [] else [cur] := by
  induction t generalizing cur with
  | nil => rfl
  | cons c cs ih =>
    have hc : pyIsSpace c = true := h c (List.mem_cons_self c cs)
    have hcs : allWs cs := fun x hx => h x (List.mem_cons_of_mem c hx)
    rw [wordsGo, if_pos hc]
    by_cases hcur : cur = []
    · rw [if_pos hcur, if_pos hcur, ih hcs]
      simp
    · rw [if_neg hcur, if_neg hcur, ih hcs]
      simp

theorem wordsGo_append_allWs (x : List Char) (t : List Char) (h : allWs t)
    (cur : List Char) : wordsGo cur (x ++ t) = wordsGo cur x := by
  induction x generalizing cur with
  | nil =>
    rw [List.nil_append, wordsGo_allWs t h cur]
    rfl
  | cons c cs ih =>
    rw [List.cons_append, wordsGo, wordsGo]
    by_cases hc : pyIsSpace c = true
    · rw [if_pos hc, if_pos hc]
      by_cases hcur : cur = []
      · rw [if_pos hcur, if_pos hcur, ih []]
      · rw [if_neg hcur, if_neg hcur, ih []]
    · rw [if_neg hc, if_neg hc, ih (cur ++ [c])]

theorem wordsGo_allWs_append (lws : List Char) (h : allWs lws) (x : List Char) :
    wordsGo [] (lws ++ x) = wordsGo [] x := by
  induction lws with
  | nil => rfl
  | cons c cs ih =>
    have hc : pyIsSpace c = true := h c (List.mem_cons_self c cs)
    have hcs : allWs cs := fun y hy => h y (List.mem_cons_of_mem c hy)
    rw [List.cons_append, wordsGo, if_pos hc, if_pos rfl]
    exact ih hcs

theorem wordsGo_mem (s : List Char) (cur : List Char)
    (hcur : ∀ c ∈ cur, pyIsSpace c = false) :
    ∀ w ∈ wordsGo cur s, w ≠ [] ∧ ∀ c ∈ w, pyIsSpace c = false := by
  induction s generalizing cur with
  | nil =>
    intro w hw
    rw [wordsGo] at hw
    split at hw
    · cases hw
    · rename_i hne
      rw [List.mem_singleton] at hw
      subst hw
      exact ⟨hne, hcur⟩
  | cons c cs ih =>
    intro w hw
    rw [wordsGo] at hw
    split at hw
    · split at hw
      · exact ih [] (by simp) w hw
      · rename_i hne
        rcases List.mem_cons.mp hw with rfl | hw2
        · exact ⟨hne, hcur⟩
        · exact ih [] (by simp) w hw2
    · rename_i hc
      refine ih (cur ++ [c]) ?_ w hw
      intro d hd
      rcases List.mem_append.mp hd with hd1 | hd2
      · exact hcur d hd1
      · rw [List.mem_singleton] at hd2
        subst hd2
        exact Bool.not_eq_true _ ▸ hc

theorem allWs_takeWhile (x : List Char) : allWs (x.takeWhile pyIsSpace) := by
  induction x with
  | nil => intro c hc; cases hc
  | cons c cs ih =>
    intro d hd
    rw [List.takeWhile] at hd
    rcases hc : pyIsSpace c with _ | _
    · rw [hc] at hd; cases hd
    · rw [hc] at hd
      rcases List.mem_cons.mp hd with rfl | hd2
      · exact hc
      · exact ih d hd2

/-- A list decomposes as leading whitespace, its strip, and trailing
whitespace. -/
theorem pyStrip_decomp (x : List Char) :
    ∃ a b, x = a ++ pyStrip x ++ b ∧ allWs a ∧ allWs b := by
  refine ⟨x.takeWhile pyIsSpace,
    ((x.dropWhile pyIsSpace).reverse.takeWhile pyIsSpace).reverse,
    ?_, allWs_takeWhile x, ?_⟩
  · conv_lhs => rw [← List.takeWhile_append_dropWhile pyIsSpace x]
    rw [List.append_assoc]
    congr 1
    have h2 := List.takeWhile_append_dropWhile pyIsSpace
      (x.dropWhile pyIsSpace).reverse
    have h3 := congrArg List.reverse h2
    rw [List.reverse_append, List.reverse_reverse] at h3
    rw [pyStrip]
    exact h3.symm
  · intro c hc
    rw [List.mem_reverse] at hc
    exact allWs_takeWhile _ c hc

/-- Stripping does not change the word sequence. -/
theorem pyWords_pyStrip (x : List Char) : pyWords (pyStrip x) = pyWords x := by
  obtain ⟨a, b, hx, ha, hb⟩ := pyStrip_decomp x
  have h1 : pyWords x = wordsGo [] (a ++ (pyStrip x ++ b)) := by
    rw [pyWords]
    congr 1
    rw [← List.append_assoc, ← hx]
  rw [h1, wordsGo_allWs_append a ha, pyWords]
  exact (wordsGo_append_allWs _ b hb []).symm

/-- The strip of a list is empty exactly when it is all whitespace. -/
theorem pyStrip_nil_iff (x : List Char) : pyStrip x = [] ↔ allWs x := by
  constructor
  · intro h
    obtain ⟨a, b, hx, ha, hb⟩ := pyStrip_decomp x
    rw [h] at hx
    intro c hc
    rw [hx] at hc
    rcases List.mem_append.mp hc with hc1 | hc2
    · rcases List.mem_append.mp hc1 with hc3 | hc4
      · exact ha c hc3
      · cases hc4
    · exact hb c hc2
  · intro h
    have h1 : x.dropWhile pyIsSpace = [] :=
      List.dropWhile_eq_nil_iff.mpr (fun c hc => h c hc)
    rw [pyStrip, h1]
    rfl

/-! ### Prefix preservation through strip -/

theorem dropWhile_append_ex (p : Char → Bool) (x y : List Char)
    (h : ∃ a ∈ x, p a = false) :
    (x ++ y).dropWhile p = x.dropWhile p ++ y := by
  induction x with
  | nil => obtain ⟨a, ha, _⟩ := h; cases ha
  | cons c cs ih =>
    rw [List.cons_append, List.dropWhile, List.dropWhile]
    rcases hc : p c with _ | _
    · simp
    · simp only []
      obtain ⟨a, ha, hpa⟩ := h
      rcases List.mem_cons.mp ha with rfl | ha2
      · rw [hc] at hpa; cases hpa
      · exact ih ⟨a, ha2, hpa⟩

theorem dropWhile_append_all (p : Char → Bool) (x y : List Char)
    (h : ∀ a ∈ x, p a = true) :
    (x ++ y).dropWhile p = y.dropWhile p := by
  induction x with
  | nil => rfl
  | cons c cs ih =>
    rw [List.cons_append, List.dropWhile, h c (List.mem_cons_self c cs)]
    exact ih (fun a ha => h a (List.mem_cons_of_mem c ha))

theorem dropWhile_of_head_neg (p : Char → Bool) (l : List Char)
    (h : ∀ c, l.head? = some c → p c = false) :
    l.dropWhile p = l := by
  cases l with
  | nil => rfl
  | cons c cs =>
    rw [List.dropWhile, h c rfl]

/-- Edge characters of a space-join of nonempty whitespace-free words. -/
theorem joinSp_edges (ws : List (List Char))
    (h : ∀ w ∈ ws, w ≠ [] ∧ ∀ c ∈ w, pyIsSpace c = false) (hne : ws ≠ []) :
    joinSp ws ≠ [] ∧
    (∀ c, (joinSp ws).head? = some c → pyIsSpace c = false) ∧
    (∀ c, (joinSp ws).getLast? = some c → pyIsSpace c = false) := by
  induction ws with
  | nil => exact absurd rfl hne
  | cons w t ih =>
    obtain ⟨hw, hwc⟩ := h w (List.mem_cons_self w t)
    by_cases ht : t = []
    · subst ht
      have hjs : joinSp [w] = w := rfl
      rw [hjs]
      refine ⟨hw, fun c hc => ?_, fun c hc => ?_⟩
      · exact hwc c (List.mem_of_mem_head? hc)
      · exact hwc c (List.mem_of_mem_getLast? hc)
    · obtain ⟨hj, hjh, hjl⟩ := ih (fun x hx => h x (List.mem_cons_of_mem w hx)) ht
      rw [joinSp_cons w t ht]
      refine ⟨by simp [hw], fun c hc => ?_, fun c hc => ?_⟩
      · rw [List.head?_append_of_ne_nil w hw] at hc
        exact hwc c (List.mem_of_mem_head? hc)
      · rw [List.getLast?_append] at hc
        have hlast : (' ' :: joinSp t).getLast? = (joinSp t).getLast? := by
          cases hjt : joinSp t with
          | nil => exact absurd hjt hj
          | cons z u => simp [List.getLast?_cons_cons]
        rw [hlast] at hc
        rcases hgl : (joinSp t).getLast? with _ | d
        · exact absurd hgl (by simp [List.getLast?_eq_none_iff, hj])
        · rw [hgl] at hc
          simp only [Option.or_some, Option.some.injEq] at hc
          subst hc
          exact hjl d hgl

/-- A block with non-whitespace edge characters survives at the front of
the strip of any extension. -/
theorem pyStrip_append_keep (A r : List Char) (hA : A ≠ [])
    (hh : ∀ c, A.head? = some c → pyIsSpace c = false)
    (hl : ∀ c, A.getLast? = some c → pyIsSpace c = false) :
    A <+: pyStrip (A ++ r) := by
  have h1 : (A ++ r).dropWhile pyIsSpace = A ++ r := by
    apply dropWhile_of_head_neg
    intro c hc
    rw [List.head?_append_of_ne_nil A hA] at hc
    exact hh c hc
  rw [pyStrip, h1, List.reverse_append]
  by_cases hr : ∃ c ∈ r.reverse, pyIsSpace c = false
  · rw [dropWhile_append_ex _ _ _ hr, List.reverse_append, List.reverse_reverse]
    exact ⟨_, rfl⟩
  · have hallr : ∀ c ∈ r.reverse, pyIsSpace c = true := by
      intro c hc
      rcases hb : pyIsSpace c with _ | _
      · exact absurd ⟨c, hc, hb⟩ hr
      · rfl
    rw [dropWhile_append_all _ _ _ hallr,
      dropWhile_of_head_neg _ _ (by
        intro c hc
        rw [List.head?_reverse] at hc
        exact hl c hc),
      List.reverse_reverse]

/-- The words carried into the overlap seed: nonempty, whitespace-free. -/
theorem seedOf_words (o : ℕ) (pc : List Char) :
    ∀ w ∈ overlapTail o (pyWords pc), w ≠ [] ∧ ∀ c ∈ w, pyIsSpace c = false := by
  intro w hw
  have hmem : w ∈ pyWords pc := by
    rw [overlapTail] at hw
    split at hw
    · exact List.drop_subset _ _ hw
    · exact hw
  exact wordsGo_mem pc [] (by simp) w hmem

/-- The overlap seed is a prefix of the stripped content of the chunk it
opens. -/
theorem seedOf_prefix (o : ℕ) (pc r : List Char) :
    seedOf o pc <+: pyStrip (seedOf o pc ++ ' ' :: r) := by
  rcases how : overlapTail o (pyWords pc) with _ | ⟨w, ws⟩
  · rw [seedOf, how]
    exact ⟨_, rfl⟩
  · have hfacts := joinSp_edges (w :: ws)
      (by rw [← how]; exact seedOf_words o pc) (by simp)
    rw [seedOf, how]
    exact pyStrip_append_keep _ _ hfacts.1 hfacts.2.1 hfacts.2.2

theorem overlapTail_length_le (o : ℕ) (ws : List (List Char)) :
    (overlapTail o ws).length ≤ max o ws.length := by
  rw [overlapTail]
  split
  · rw [List.length_drop]
    omega
  · omega

theorem overlapTail_length_le_of_pos (o : ℕ) (ws : List (List Char)) :
    (overlapTail o ws).length ≤ o ∨ overlapTail o ws = ws := by
  rw [overlapTail]
  split
  · left
    rw [List.length_drop]
    omega
  · right
    rfl

theorem overlapTail_length_le_overlap (o : ℕ) (ws : List (List Char)) :
    (overlapTail o ws).length ≤ o := by
  rw [overlapTail]
  split
  · rw [List.length_drop]
    omega
  · rename_i h
    omega

/-! ### chunksMatch machinery -/

theorem chunksMatch_snoc (o : ℕ) (c : ChunkM) (g : List (List Char)) :
    ∀ (cs : List ChunkM) (prev : Option (List Char)) (gs : List (List (List Char))),
    chunksMatch o prev cs gs →
    (c.content = match lastContentOpt prev cs with
      | none => pyStrip (joinSp g)
      | some pc => pyStrip (seedOf o pc ++ ' ' :: joinSp g)) →
    chunksMatch o prev (cs ++ [c]) (gs ++ [g]) := by
  intro cs
  induction cs with
  | nil =>
    intro prev gs hm hc
    have hgs : gs = [] := hm
    subst hgs
    refine ⟨?_, rfl⟩
    simpa [lastContentOpt] using hc
  | cons c0 cs0 ih =>
    intro prev gs hm hc
    cases gs with
    | nil => exact absurd hm (by simp [chunksMatch])
    | cons g0 gs0 =>
      obtain ⟨h1, h2⟩ := hm
      refine ⟨h1, ?_⟩
      apply ih (some c0.content) gs0 h2
      have hsame : lastContentOpt (some c0.content) cs0 = lastContentOpt prev (c0 :: cs0) := by
        cases cs0 with
        | nil => rfl
        | cons x xs =>
          rw [lastContentOpt, lastContentOpt, List.getLast?_cons_cons]
          cases hg : (x :: xs).getLast? with
          | none => exact absurd hg (by simp [List.getLast?_eq_none_iff])
          | some d => rfl
      rw [hsame]
      exact hc

theorem chunksMatch_chain (o : ℕ) :
    ∀ (cs : List ChunkM) (prev : Option (List Char)) (gs : List (List (List Char))),
    chunksMatch o prev cs gs →
    List.Chain' (fun a b => seedOf o a.content <+: b.content) cs := by
  intro cs
  induction cs with
  | nil => intro _ _ _; exact List.chain'_nil
  | cons c0 cs0 ih =>
    intro prev gs hm
    cases gs with
    | nil => exact absurd hm (by simp [chunksMatch])
    | cons g0 gs0 =>
      obtain ⟨h1, h2⟩ := hm
      have htail := ih (some c0.content) gs0 h2
      cases cs0 with
      | nil => simp
      | cons c1 cs1 =>
        cases gs0 with
        | nil => exact absurd h2 (by simp [chunksMatch])
        | cons g1 gs1 =>
          obtain ⟨h3, _⟩ := h2
          refine List.chain'_cons.mpr ⟨?_, htail⟩
          rw [h3]
          exact seedOf_prefix o c0.content (joinSp g1)

theorem inv_to_inv0 (o : ℕ) (st : List ChunkM × List Char × ℕ)
    (done : List (List Char)) (h : invOK o st done) : invOK0 o st done := by
  obtain ⟨gs, cg, h1, h2, h3, h4, _⟩ := h
  exact ⟨gs, cg, h1, h2, h3, h4⟩

/-- What the running chunk strips to, stated through the last closed
chunk's content. -/
theorem curOK_content (o : ℕ) (chunks : List ChunkM) (cur : List Char)
    (cg : List (List Char)) (h : curOK o chunks cur cg) :
    pyStrip cur = match lastContentOpt none chunks with
      | none => pyStrip (joinSp cg)
      | some pc => pyStrip (seedOf o pc ++ ' ' :: joinSp cg) := by
  rw [curOK] at h
  rw [lastContentOpt]
  rcases hcl : chunks.getLast? with _ | c
  · rw [hcl] at h
    rw [h]
  · rw [hcl] at h
    rw [h.2]

/-- One loop iteration preserves the invariant (the side condition needs
the processed sentence or the running chunk to be nonempty, which the
splitter guarantees for every sentence but the last). -/
theorem chunkStep_inv (C o : ℕ) (ho : 0 < o)
    (chunks : List ChunkM) (cur : List Char) (n : ℕ)
    (done : List (List Char)) (s : List Char)
    (hinv : invOK o (chunks, cur, n) done) (hgood : s ≠ [] ∨ cur ≠ []) :
    invOK o (chunkStep C o (chunks, cur, n) s) (done ++ [s]) := by
  obtain ⟨gs, cg, hdone, hmatch, hcur, hids, hemp⟩ := hinv
  dsimp only at hmatch hcur hids hemp
  rw [chunkStep]
  dsimp only
  by_cases hsplit : n + s.length > C ∧ cur ≠ []
  · rw [if_pos hsplit, if_pos ho]
    refine ⟨gs ++ [cg], [s], ?_, ?_, ?_, ?_, ?_⟩
    · rw [hdone, List.flatten_append]
      simp
    · apply chunksMatch_snoc o _ cg chunks none gs hmatch
      exact curOK_content o chunks cur cg hcur
    · have hlast : (chunks ++ [(⟨pyStrip cur, n, chunks.length⟩ : ChunkM)]).getLast?
          = some ⟨pyStrip cur, n, chunks.length⟩ := List.getLast?_concat chunks
      rw [curOK, hlast]
      refine ⟨by simp, ?_⟩
      dsimp only
      rw [seedOf, pyWords_pyStrip]
      rfl
    · rw [List.map_append, hids, List.length_append]
      simp [List.range_succ]
    · intro habs
      simp at habs
  · rw [if_neg hsplit]
    by_cases hcnil : cur = []
    · subst hcnil
      have hcg : cg = [] := hemp rfl
      subst hcg
      rcases hcl : chunks.getLast? with _ | c
      · refine ⟨gs, [s], ?_, hmatch, ?_, hids, ?_⟩
        · rw [hdone]
          simp
        · rw [curOK, hcl]
          simp [joinSp]
        · intro h2
          rcases hgood with hs | hc
          · simp at h2
            exact absurd h2 hs
          · exact absurd rfl hc
      · rw [curOK, hcl] at hcur
        exact absurd hcur.2.symm (by simp)
    · refine ⟨gs, cg ++ [s], ?_, hmatch, ?_, hids, ?_⟩
      · rw [hdone, List.append_assoc]
      · rcases hcl : chunks.getLast? with _ | c
        · rw [curOK, hcl] at hcur ⊢
          have hcgne : cg ≠ [] := by
            intro hk
            subst hk
            exact hcnil (by simpa [joinSp] using hcur)
          dsimp only
          rw [if_neg hcnil, joinSp_snoc cg s hcgne, ← hcur]
          simp
        · rw [curOK, hcl] at hcur ⊢
          obtain ⟨hcg, hc2⟩ := hcur
          refine ⟨by simp, ?_⟩
          dsimp only
          rw [if_neg hcnil, joinSp_snoc cg s hcg, hc2]
          simp
      · intro h2
        dsimp only at h2
        rw [if_neg hcnil] at h2
        simp at h2

/-- The loop invariant carried over a sentence list in which only the
last sentence may be empty (as `splitSentences` produces). -/
theorem chunkFold_inv (C o : ℕ) (ho : 0 < o) :
    ∀ (ss : List (List Char)) (chunks : List ChunkM) (cur : List Char) (n : ℕ)
      (done : List (List Char)),
    invOK o (chunks, cur, n) done → SentOK ss →
    invOK0 o (ss.foldl (chunkStep C o) (chunks, cur, n)) (done ++ ss) := by
  intro ss
  induction ss with
  | nil =>
    intro chunks cur n done h _
    simpa using inv_to_inv0 o _ done h
  | cons s rest ih =>
    intro chunks cur n done h hok
    rw [List.foldl_cons]
    cases rest with
    | nil =>
      rw [List.foldl_nil]
      by_cases hgood : s ≠ [] ∨ cur ≠ []
      · exact inv_to_inv0 o _ _ (chunkStep_inv C o ho chunks cur n done s h hgood)
      · push_neg at hgood
        obtain ⟨hs, hcur⟩ := hgood
        subst hs
        subst hcur
        obtain ⟨gs, cg, hdone, hmatch, hcurok, hids, hemp⟩ := h
        dsimp only at hmatch hcurok hids hemp
        have hcg : cg = [] := hemp rfl
        subst hcg
        rw [chunkStep]
        dsimp only
        rw [if_neg (by simp)]
        refine ⟨gs, [[]], ?_, hmatch, ?_, hids⟩
        · rw [hdone]
          simp
        · rcases hcl : chunks.getLast? with _ | c
          · rw [curOK, hcl]
            simp [joinSp]
          · rw [curOK, hcl] at hcurok
            exact absurd hcurok.2.symm (by simp)
    | cons s2 rest2 =>
      obtain ⟨hs, hok2⟩ := hok
      have h2 := chunkStep_inv C o ho chunks cur n done s h (Or.inl hs)
      rcases hst : chunkStep C o (chunks, cur, n) s with ⟨chunks2, cur2, n2⟩
      rw [hst] at h2
      have h3 := ih chunks2 cur2 n2 (done ++ [s]) h2 hok2
      simpa [List.append_assoc] using h3

/-- Sequential ids and the sentence partition of the produced chunks. -/
theorem smart_chunk_invariants (text : String) :
    ((smart_chunk_text text 1500 200).map (fun c => c.chunk_id) =
      List.range (smart_chunk_text text 1500 200).length) ∧
    ∃ gs leftover, splitSentences text.data = gs.flatten ++ leftover ∧
      pyStrip (joinSp leftover) = [] ∧
      chunksMatch 200 none (smart_chunk_text text 1500 200) gs := by
  have hstart : invOK 200 ([], [], 0) [] :=
    ⟨[], [], rfl, rfl, rfl, rfl, fun _ => rfl⟩
  have hfold := chunkFold_inv 1500 200 (by norm_num) (splitSentences text.data)
    [] [] 0 [] hstart (splitGo_sentOK text.data [] false)
  rw [List.nil_append] at hfold
  rcases hst : (splitSentences text.data).foldl (chunkStep 1500 200) ([], [], 0)
    with ⟨chunks, cur, n⟩
  rw [hst] at hfold
  obtain ⟨gs, cg, hdone, hmatch, hcur, hids⟩ := hfold
  dsimp only at hmatch hcur hids
  have hres : smart_chunk_text text 1500 200 =
      if pyStrip cur ≠ [] then chunks ++ [⟨pyStrip cur, n, chunks.length⟩]
      else chunks := by
    rw [smart_chunk_text]
    rw [hst]
  by_cases hne : pyStrip cur = []
  · rw [hres, if_neg (by simpa using hne)]
    refine ⟨hids, gs, cg, hdone, ?_, hmatch⟩
    rcases hcl : chunks.getLast? with _ | c
    · rw [curOK, hcl] at hcur
      rw [← hcur]
      exact hne
    · rw [curOK, hcl] at hcur
      obtain ⟨hcg, hc2⟩ := hcur
      rw [pyStrip_nil_iff]
      intro ch hch
      have hmem : ch ∈ cur := by
        rw [hc2]
        exact List.mem_append_right _ (List.mem_cons_of_mem _ hch)
      exact (pyStrip_nil_iff cur).mp hne ch hmem
  · rw [hres, if_pos (by simpa using hne)]
    constructor
    · rw [List.map_append, hids, List.length_append]
      simp [List.range_succ]
    · refine ⟨gs ++ [cg], [], ?_, by simp [joinSp, pyStrip], ?_⟩
      · rw [hdone, List.flatten_append]
        simp
      · apply chunksMatch_snoc 200 _ cg chunks none gs hmatch
        exact curOK_content 200 chunks cur cg hcur

/-- Every chunk after the first begins with the at-most-200-word overlap
seed taken from the end of the previous chunk's content. -/
theorem smart_chunk_chain (text : String) :
    List.Chain' (fun a b =>
      seedOf 200 a.content <+: b.content ∧
      (overlapTail 200 (pyWords a.content)).length ≤ 200)
      (smart_chunk_text text 1500 200) := by
  obtain ⟨-, gs, leftover, -, -, hmatch⟩ := smart_chunk_invariants text
  exact (chunksMatch_chain 200 _ none gs hmatch).imp
    (fun a b h => ⟨h, overlapTail_length_le_overlap 200 (pyWords a.content)⟩)

/-- While the joined text fits in the chunk size the loop never splits:
it just accumulates the space-joined sentences, with `current_size`
running one character above the joined length. -/
theorem chunkFold_no_split (C o : ℕ) :
    ∀ (ss : List (List Char)) (cur : List Char) (chunks : List ChunkM),
    cur ≠ [] → (joinSp (cur :: ss)).length ≤ C →
    ss.foldl (chunkStep C o) (chunks, cur, cur.length + 1) =
      (chunks, joinSp (cur :: ss), (joinSp (cur :: ss)).length + 1) := by
  intro ss
  induction ss with
  | nil =>
    intro cur chunks hc hl
    rfl
  | cons s rest ih =>
    intro cur chunks hc hl
    rw [List.foldl_cons]
    have hcond : ¬(cur.length + 1 + s.length > C ∧ cur ≠ []) := by
      intro hand
      have h1 : (joinSp (cur :: s :: rest)).length =
          cur.length + 1 + (joinSp (s :: rest)).length :=
        joinSp_length_cons _ _ (by simp)
      have h2 : s.length ≤ (joinSp (s :: rest)).length := joinSp_head_length_le s rest
      omega
    have hstep : chunkStep C o (chunks, cur, cur.length + 1) s =
        (chunks, cur ++ ' ' :: s, (cur ++ ' ' :: s).length + 1) := by
      rw [chunkStep]
      dsimp only
      rw [if_neg hcond, if_neg hc, if_neg (by simp : ¬(cur ++ [' '] ++ s = []))]
      rw [Prod.mk.injEq, Prod.mk.injEq]
      refine ⟨rfl, by simp, ?_⟩
      simp only [List.length_append, List.length_cons]
      omega
    rw [hstep]
    have hglue := joinSp_glue cur s rest
    rw [← hglue] at hl
    rw [← hglue]
    exact ih (cur ++ ' ' :: s) chunks (by simp) hl

/-- Text under the chunk size yields at most one chunk: exactly one whose
content is the trimmed space-join of the sentences, or none at all when
that join is whitespace-only. -/
theorem smart_chunk_short (text : String) (h : text.data.length < 1500) :
    smart_chunk_text text 1500 200 =
      if pyStrip (joinSp (splitSentences text.data)) = [] then []
      else [⟨pyStrip (joinSp (splitSentences text.data)),
            (joinSp (splitSentences text.data)).length + 1, 0⟩] := by
  have hlen : (joinSp (splitSentences text.data)).length ≤ 1500 := by
    have hj := splitGo_join_length text.data [] false
    simp only [List.length_nil] at hj
    rw [splitSentences]
    omega
  rcases hss : splitSentences text.data with _ | ⟨s0, rest⟩
  · exact absurd hss (splitGo_ne_nil [] false text.data)
  · by_cases h0 : s0 = []
    · subst h0
      have hrest : rest = [] := (splitGo_head_nil text.data [] false rest hss).2
      subst hrest
      rw [smart_chunk_text, hss]
      decide
    · have hfirst : chunkStep 1500 200 ([], [], 0) s0 = ([], s0, s0.length + 1) := by
        rw [chunkStep]
        dsimp only
        rw [if_neg (by intro hand; exact hand.2 rfl), if_pos rfl]
        rw [Prod.mk.injEq, Prod.mk.injEq]
        refine ⟨rfl, by simp, ?_⟩
        simp [h0]
      have hlen2 : (joinSp (s0 :: rest)).length ≤ 1500 := by rw [← hss]; exact hlen
      rw [smart_chunk_text, hss, List.foldl_cons, hfirst,
        chunkFold_no_split 1500 200 rest s0 [] h0 hlen2]
      by_cases hstrip : pyStrip (joinSp (s0 :: rest)) = []
      · rw [if_neg (by simpa using hstrip), if_pos hstrip]
      · rw [if_pos (by simpa using hstrip), if_neg hstrip]
        simp

/-- C4 as amended: (1) text under 1500 characters yields exactly one
chunk — whose content is the input's sentence sequence joined by single
spaces and trimmed (the trimmed input with inter-sentence whitespace
collapsed) — or no chunk at all when the input is whitespace-only;
(2) `chunk_id`s are sequential from 0; (3) the sentence sequence splits
into one consecutive group per chunk (plus a whitespace-only dropped
remainder), the first chunk being its group joined by spaces and
trimmed, and every later chunk the trim of the previous chunk's overlap
seed, a space, and its own group joined by spaces — so concatenating the
chunks' non-overlap content reconstructs the sentence sequence up to the
per-chunk trimming; (4) every chunk after the first begins with the
overlap seed, which holds at most 200 words drawn from the end of the
previous chunk's content. -/
theorem C4_smart_chunk_amended :
    (∀ text : String, text.data.length < 1500 →
      smart_chunk_text text 1500 200 =
        if pyStrip (joinSp (splitSentences text.data)) = [] then []
        else [⟨pyStrip (joinSp (splitSentences text.data)),
              (joinSp (splitSentences text.data)).length + 1, 0⟩]) ∧
    (∀ text : String,
      (smart_chunk_text text 1500 200).map (fun c => c.chunk_id) =
        List.range (smart_chunk_text text 1500 200).length) ∧
    (∀ text : String, ∃ gs leftover,
      splitSentences text.data = gs.flatten ++ leftover ∧
      pyStrip (joinSp leftover) = [] ∧
      chunksMatch 200 none (smart_chunk_text text 1500 200) gs) ∧
    (∀ text : String,
      List.Chain' (fun a b =>
        seedOf 200 a.content <+: b.content ∧
        (overlapTail 200 (pyWords a.content)).length ≤ 200)
        (smart_chunk_text text 1500 200)) :=
  ⟨smart_chunk_short, fun t => (smart_chunk_invariants t).1,
   fun t => (smart_chunk_invariants t).2, smart_chunk_chain⟩

/-- C4 witness: the counterexample input evaluated through the amended
short-text clause. -/
theorem C4_smart_chunk_amended_witness :
    smart_chunk_text "A.  B." 1500 200 = [⟨"A. B.".data, 6, 0⟩] := by
  have h := C4_smart_chunk_amended.1 "A.  B." (by decide)
  rw [h]
  decide
